import Mathlib

/-!
Verification of the evaluation harness of the roast-my-post forecasting
repository.  The Python modules under evaluation/ are shallowly embedded:
dict-shaped records become structures, floats become rationals (reals where
the source applies transcendental functions), and the process-global random
generator consumed by random.sample / random.shuffle is made explicit as a
stream of natural-number draws.
-/

namespace RoastEval

/-! ## String helpers

Python substring and boundary tests (`a in b`, `startswith`, `endswith`,
`str.lower`) modelled on lists of characters. -/

/-- Does the list `s` start with the pattern `pat`? (Python startswith). -/
def starts : List Char → List Char → Bool
  | [], _ => true
  | _ :: _, [] => false
  | a :: pat, b :: s => a == b && starts pat s

/-- Does the pattern `pat` occur as a contiguous run inside `s`?
(Python `pat in s`). -/
def hasSub : List Char → List Char → Bool
  | pat, [] => starts pat []
  | pat, c :: s => starts pat (c :: s) || hasSub pat s

/-- Does the list `s` end with the pattern `pat`? (Python endswith). -/
def ends (pat s : List Char) : Bool :=
  starts pat.reverse s.reverse

/-- Python str.lower on the ASCII strings used by the scripts. -/
def strToLower (s : String) : String :=
  String.mk (s.data.map Char.toLower)

/-- Python `pat in s` on strings. -/
def strHas (pat s : String) : Bool :=
  hasSub pat.data s.data

/-- Python `s.startswith pat` on strings. -/
def strStarts (pat s : String) : Bool :=
  starts pat.data s.data

/-! ## Decimal formatting

Python number formatting (f-strings with a fixed number of decimals, and
round(x, n)) uses round-half-to-even.  We model it exactly on rationals. -/

/-- Round a rational to the nearest integer, halves to even
(the rounding used by Python round() and %.nf formatting). -/
def roundHalfEven (q : ℚ) : ℤ :=
  let f := ⌊q⌋
  let frac := q - f
  if frac < 1 / 2 then f
  else if 1 / 2 < frac then f + 1
  else if f % 2 = 0 then f else f + 1

/-- Render a natural number left-padded with zeros to width `w`. -/
def padZeros (w : ℕ) (n : ℕ) : String :=
  let s := toString n
  String.mk (List.replicate (w - s.length) '0') ++ s

/-- Python fixed-point formatting of a rational: `%.nf`. -/
def fmtFixed (n : ℕ) (q : ℚ) : String :=
  let r := roundHalfEven (q * 10 ^ n)
  let a := r.natAbs
  let intPart := a / 10 ^ n
  let fracPart := a % 10 ^ n
  (if r < 0 then "-" else "") ++ toString intPart ++
    (if n = 0 then "" else "." ++ padZeros n fracPart)

/-! ## Scorer (evaluation/lib/metrics.py)

Each metric receives the forecaster output dict and the dataset item dict.
Only the keys `error` and `probability` of the output and the key
`market_probability` of the item are consulted; `extra` records whether the
output dict carries any further keys (which keeps it truthy in Python). -/

/-- The forecaster output dict, as consulted by the metrics. -/
structure ForecastOutput where
  error : Option String
  probability : Option ℚ
  extra : Bool
deriving DecidableEq

/-- Python `not output`: a dict is falsy exactly when it has no keys. -/
def ForecastOutput.falsy (o : ForecastOutput) : Bool :=
  o.error.isNone && o.probability.isNone && !o.extra

/-- The dataset item dict, as consulted by the metrics. -/
structure Item where
  market_probability : Option ℚ
deriving DecidableEq

/-- One Opik ScoreResult; `value` is rational for Brier / calibration and
real for the log score. -/
structure ScoreResult (α : Type) where
  name : String
  value : α
  reason : String
deriving DecidableEq

/-- BrierScoreMetric.score from evaluation/lib/metrics.py. -/
def BrierScoreMetric.score (output : ForecastOutput) (item : Item) :
    ScoreResult ℚ :=
  if output.falsy || output.error.isSome then
    ⟨"brier_score", 0, "Error in forecast"⟩
  else
    let predicted := (output.probability.getD 50) / 100
    let market := (item.market_probability.getD 50) / 100
    let brier := (predicted - market) ^ 2
    let normalized := 1 - brier
    ⟨"brier_score", normalized,
      "Market: " ++ fmtFixed 1 (market * 100) ++ "%, Predicted: " ++
        fmtFixed 1 (predicted * 100) ++ "%, Brier: " ++ fmtFixed 3 brier⟩

/-- The clamp `max(0.001, min(0.999, x))` used by LogScoreMetric. -/
def clampUnit (q : ℚ) : ℚ :=
  max (1 / 1000) (min (999 / 1000) q)

/-- Python fixed-point formatting of a real value, for the reason string of
the log score: the mathematical value is rounded half-to-even at `n`
decimals and rendered. -/
noncomputable def fmtRealFixed (n : ℕ) (x : ℝ) : String :=
  let scaled := x * 10 ^ n
  let f := ⌊scaled⌋
  let r : ℤ :=
    if scaled - f < 1 / 2 then f
    else if 1 / 2 < scaled - f then f + 1
    else if f % 2 = 0 then f else f + 1
  let a := r.natAbs
  (if r < 0 then "-" else "") ++ toString (a / 10 ^ n) ++
    (if n = 0 then "" else "." ++ padZeros n (a % 10 ^ n))

/-- LogScoreMetric.score from evaluation/lib/metrics.py. -/
noncomputable def LogScoreMetric.score (output : ForecastOutput) (item : Item) :
    ScoreResult ℝ :=
  if output.falsy || output.error.isSome then
    ⟨"log_score", 0, "Error in forecast"⟩
  else
    let predicted := clampUnit ((output.probability.getD 50) / 100)
    let market := clampUnit ((item.market_probability.getD 50) / 100)
    let logScore : ℝ :=
      market * Real.log predicted + (1 - market) * Real.log (1 - predicted)
    let normalized := Real.exp logScore
    ⟨"log_score", normalized,
      "Market: " ++ fmtFixed 1 (market * 100) ++ "%, Predicted: " ++
        fmtFixed 1 (predicted * 100) ++ "%, Raw log: " ++
        fmtRealFixed 3 logScore⟩

/-- CalibrationMetric.score from evaluation/lib/metrics.py. -/
def CalibrationMetric.score (output : ForecastOutput) (item : Item) :
    ScoreResult ℚ :=
  if output.falsy || output.error.isSome then
    ⟨"calibration", 0, "Error in forecast"⟩
  else
    let predicted := output.probability.getD 50
    let market := item.market_probability.getD 50
    let err := |predicted - market|
    let score := 1 - err / 100
    ⟨"calibration", score,
      "Market: " ++ fmtFixed 1 market ++ "%, Predicted: " ++
        fmtFixed 1 predicted ++ "%, Error: " ++ fmtFixed 1 err ++ "%"⟩

/-! ## Categorizer (evaluation/scripts/categorize.py) -/

/-- The fixed topic → keyword table of categorize.py. -/
def TOPIC_KEYWORDS : List (String × List String) :=
  [("sports",
    ["nba", "nfl", "mlb", "nhl", "soccer", "football", "basketball",
     "baseball", "hockey", "tennis", "golf", "olympics", "championship",
     "tournament", "mvp", "rookie", "season", "game", "match", "team",
     "player", "coach", "league", "world cup", "super bowl", "finals",
     "playoff", "win the", "score", "motogp", "formula", "racing",
     "athletic", "athlete", "sport"]),
   ("politics",
    ["election", "vote", "president", "senator", "congress", "parliament",
     "governor", "mayor", "party", "democrat", "republican", "campaign",
     "candidate", "primary", "caucus", "poll", "debate", "government",
     "minister", "cabinet", "policy", "legislation", "bill", "law",
     "political", "politician", "borough", "mayoral", "gubernatorial",
     "house of councillors", "seats", "ldp", "komeito", "jcp", "jip",
     "dpp", "councillors", "council", "assembly", "senate",
     "representatives"]),
   ("economics",
    ["gdp", "inflation", "unemployment", "recession", "economy",
     "economic", "market", "stock", "bond", "interest rate",
     "federal reserve", "fed", "price", "dollar", "euro", "currency",
     "trade", "tariff", "budget", "debt", "deficit", "growth", "earnings",
     "revenue", "profit"]),
   ("technology",
    ["ai", "artificial intelligence", "machine learning", "robot",
     "software", "hardware", "computer", "internet", "tech", "startup",
     "ipo", "release", "launch", "update", "version", "app", "platform",
     "digital", "cyber", "quantum", "blockchain", "cryptocurrency",
     "bitcoin", "ethereum"]),
   ("science",
    ["research", "study", "scientist", "discovery", "experiment",
     "theory", "physics", "chemistry", "biology", "medicine", "space",
     "nasa", "climate", "temperature", "weather", "earthquake", "volcano",
     "pandemic", "virus", "vaccine", "treatment", "diagnosis",
     "breakthrough", "innovation"]),
   ("entertainment",
    ["movie", "film", "box office", "oscar", "grammy", "emmy", "award",
     "music", "album", "song", "artist", "actor", "actress", "director",
     "show", "series", "netflix", "streaming", "release", "premiere",
     "concert", "tour", "festival", "performance"]),
   ("geopolitics",
    ["war", "peace", "treaty", "alliance", "nato", "un", "united nations",
     "sanctions", "diplomatic", "ambassador", "embassy", "international",
     "border", "conflict", "military", "defense", "security", "foreign",
     "relations", "agreement", "negotiation", "summit"])]

/-- The per-keyword test on line 101 of categorize.py:
space-padded containment, or the keyword at the very start or very end. -/
def keywordHit (question_lower keyword : String) : Bool :=
  hasSub (' ' :: (keyword.data ++ [' '])) (' ' :: (question_lower.data ++ [' '])) ||
    strStarts (keyword ++ " ") question_lower ||
    ends (' ' :: keyword.data) question_lower.data

/-- Number of keywords of one topic that hit the (lower-cased) question. -/
def topicScore (question_lower : String) (keywords : List String) : ℕ :=
  keywords.foldl (fun acc kw => if keywordHit question_lower kw then acc + 1 else acc) 0

/-- One step of Python max keyed on the second component: a later entry
replaces the accumulator only when strictly greater, so the first maximal
element in iteration order wins. -/
def maxStep (acc : Option (String × ℕ)) (p : String × ℕ) :
    Option (String × ℕ) :=
  match acc with
  | none => some p
  | some q => if q.2 < p.2 then some p else some q

/-- Python max over (topic, score) pairs keyed on the score. -/
def maxBySnd (l : List (String × ℕ)) : Option (String × ℕ) :=
  l.foldl maxStep none

/-- classify_topic from categorize.py: build the per-topic hit counts,
keep the positive ones (the topic_scores dict), and return the first topic
of maximal score, or "other" when no keyword hits at all. -/
def classify_topic (question : String) : String :=
  match maxBySnd ((TOPIC_KEYWORDS.map
      (fun tk => (tk.1, topicScore (strToLower question) tk.2))).filter
      (fun p => decide (0 < p.2))) with
  | some p => p.1
  | none => "other"

/-- Left-to-right non-overlapping scan for the regex 20\d\d of
get_time_horizon: a match consumes four characters, a failed position
advances by one. -/
def findYears : List Char → List ℕ
  | '2' :: '0' :: c :: d :: rest =>
      if c.isDigit && d.isDigit then
        (2000 + 10 * (c.toNat - 48) + (d.toNat - 48)) :: findYears rest
      else findYears ('0' :: c :: d :: rest)
  | _ :: rest => findYears rest
  | [] => []
termination_by l => l.length

/-- get_time_horizon from categorize.py (reference year fixed at 2025). -/
def get_time_horizon (question : String) : String :=
  let ql := strToLower question
  let years := findYears question.data
  if years ≠ [] then toString (years.foldl max 0)
  else if strHas "this year" ql || strHas "this season" ql then "2025"
  else if strHas "next year" ql || strHas "next season" ql then "2026"
  else if strHas "this month" ql || strHas "next month" ql || strHas "july" ql
      || strHas "august" ql || strHas "september" ql then "2025"
  else "no_year"

/-- get_question_type from categorize.py. -/
def get_question_type (question : String) : String :=
  let ql := strToLower question
  if strStarts "will" ql && strHas "win" ql then "competition_outcome"
  else if strStarts "will" ql && (strHas "be" ql || strHas "reach" ql ||
      strHas "exceed" ql || strHas "above" ql || strHas "below" ql) then
    "threshold_question"
  else if strStarts "will" ql && (strHas "happen" ql || strHas "occur" ql ||
      strHas "take place" ql) then "event_occurrence"
  else if strHas "how many" ql || strHas "how much" ql then
    "numerical_prediction"
  else if strStarts "who will" ql then "selection_question"
  else "general_prediction"

/-- The probability bucket label built on line 161 of categorize.py:
int(probability // 10) * 10, rendered as lo-hi%. -/
def probabilityBucketStr (probability : ℚ) : String :=
  let lo : ℤ := ⌊probability / 10⌋ * 10
  toString lo ++ "-" ++ toString (lo + 10) ++ "%"

/-- A question record as consulted by categorize_question. -/
structure QuestionData where
  question : String
  market_probability : Option ℚ
deriving DecidableEq

/-- The metadata dict attached by categorize_question. -/
structure CategoryMetadata where
  topic : String
  time_horizon : String
  question_type : String
  probability_bucket : String
deriving DecidableEq

/-- categorize_question from categorize.py (the metadata it attaches;
missing market_probability defaults to 50). -/
def categorize_question (q : QuestionData) : CategoryMetadata :=
  { topic := classify_topic q.question
    time_horizon := get_time_horizon q.question
    question_type := get_question_type q.question
    probability_bucket := probabilityBucketStr (q.market_probability.getD 50) }

/-- The ten 10-point bucket labels the spec enumerates. -/
def tenBucketLabels : List String :=
  ["0-10%", "10-20%", "20-30%", "30-40%", "40-50%", "50-60%", "60-70%",
   "70-80%", "80-90%", "90-100%"]

/-! ## CostAccountant (evaluation/scripts/cost_utils.py) -/

/-- The pricing table (USD per million tokens, input and output). -/
def MODEL_PRICING : List (String × ℚ × ℚ) :=
  [("claude-opus-4-20250514", (15, 75)),
   ("claude-3-5-sonnet-20241022", (3, 15)),
   ("claude-3-haiku-20240307", (1 / 4, 5 / 4))]

/-- Python round(x, 6). -/
def round6 (q : ℚ) : ℚ :=
  (roundHalfEven (q * 10 ^ 6) : ℚ) / 10 ^ 6

/-- calculate_cost from cost_utils.py: unknown models fall back to the
claude-opus-4-20250514 row of the table. -/
def calculate_cost (model : String) (input_tokens output_tokens : ℤ) : ℚ :=
  let pricing : ℚ × ℚ :=
    match MODEL_PRICING.find? (fun p => p.1 == model) with
    | some p => p.2
    | none =>
        ((MODEL_PRICING.find?
            (fun p => p.1 == "claude-opus-4-20250514")).map Prod.snd).getD (0, 0)
  let input_cost := (input_tokens : ℚ) / 1000000 * pricing.1
  let output_cost := (output_tokens : ℚ) / 1000000 * pricing.2
  round6 (input_cost + output_cost)

/-! ## Probability normalization (evaluation/scripts/evaluate_with_meta.py) -/

/-- normalize_probability (lines 83-87): values at most 1.0 are scaled to
percent, everything else is returned unchanged. -/
def normalize_probability (prob : ℚ) : ℚ :=
  if prob ≤ 1 then prob * 100 else prob

/-- The corrective loop of the balanced branch of load_dataset
(lines 196-197): divide by 100 until the value is at most 100. -/
def fixOverScaled (prob : ℚ) : ℚ :=
  if 100 < prob then fixOverScaled (prob / 100) else prob
termination_by (⌈prob⌉).toNat
decreasing_by
  have h : (100 : ℚ) < prob := by assumption
  have hle : prob ≤ (⌈prob⌉ : ℚ) := Int.le_ceil prob
  have h1 : ⌈prob / 100⌉ ≤ ⌈prob⌉ - 99 := by
    rw [Int.ceil_le]
    push_cast
    linarith
  have h2 : (100 : ℤ) < ⌈prob⌉ := by
    have : ((100 : ℤ) : ℚ) < (⌈prob⌉ : ℚ) := lt_of_lt_of_le h hle
    exact_mod_cast this
  omega

/-- The balanced branch of load_dataset (line 198): after the loop the
value is clamped into the unit percent range. -/
def balancedFix (prob : ℚ) : ℚ :=
  min 100 (max 0 (fixOverScaled prob))

/-! ## Curator (evaluation/scripts/curate_diverse_questions.py)

The script partitions the metaforecast cache into an F1-position group,
five keyword categories and a general group, samples a capped number from
the F1 group and up to eight per category, fills from the general group
and then from all unselected non-F1 questions, shuffles and truncates.
random.sample and random.shuffle act on the process-global generator; each
call is modelled by a stream of natural-number draws (each draw picks one
element, by index modulo the remaining list, without replacement), which
covers every behaviour the library generator can produce.  The script
hard-codes target = 50 and an F1 cap of 2; these literals are the
parameters `target` and `cap` below. -/

/-- One metaforecast cache entry, as consulted by the curation script. -/
structure MetaQ where
  title : String
  current_probability : Option ℚ
deriving DecidableEq

/-- The seven disjoint groups of the elif chain. -/
inductive QCat
  | f1 | sports | politics | economics | science | crypto | general
deriving DecidableEq

/-- Python any(w in t for w in words). -/
def anyHas (words : List String) (t : String) : Bool :=
  words.any (fun w => strHas w t)

/-- The F1-position near-duplicate test (line 37). -/
def isF1Position (t : String) : Bool :=
  (strHas "fourth" t || strHas "fifth" t) &&
    (strHas "f1" t || strHas "drivers championship" t)

/-- The elif chain of the categorization loop (lines 37-50), on the
lower-cased title. -/
def catOf (q : MetaQ) : QCat :=
  let t := strToLower q.title
  if isF1Position t then .f1
  else if anyHas ["nba", "nfl", "mlb", "soccer", "football", "tennis",
      "golf", "olympic"] t then .sports
  else if anyHas ["president", "election", "vote", "congress", "senate",
      "parliament"] t then .politics
  else if anyHas ["gdp", "inflation", "recession", "economy",
      "unemployment", "stock", "market"] t then .economics
  else if anyHas ["ai", "climate", "temperature", "science", "research",
      "technology"] t then .science
  else if anyHas ["bitcoin", "ethereum", "crypto", "blockchain", "btc",
      "eth", "solana"] t then .crypto
  else .general

/-- Questions without a current_probability are skipped (line 33). -/
def eligible (q : MetaQ) : Bool :=
  q.current_probability.isSome

/-- The group of one category, in pool order. -/
def catGroup (pool : List MetaQ) (c : QCat) : List MetaQ :=
  (pool.filter eligible).filter (fun q => catOf q == c)

/-- random.sample(l, k) driven by a stream of draws: each draw removes one
element of the remaining list (index = draw mod remaining length).  A
truncated stream falls back to taking the leading elements; every
without-replacement selection of k elements is reachable by some stream. -/
def sampleBy {α : Type} : List ℕ → ℕ → List α → List α
  | _, 0, _ => []
  | _, _ + 1, [] => []
  | [], k + 1, a :: tl => (a :: tl).take (k + 1)
  | o :: os, k + 1, a :: tl =>
      let i := o % (a :: tl).length
      (a :: tl).get ⟨i, Nat.mod_lt o (by simp)⟩ ::
        sampleBy os k ((a :: tl).eraseIdx i)

/-- random.shuffle driven by a stream of draws (a full without-replacement
resampling; every permutation is reachable by some stream). -/
def shuffleBy {α : Type} (os : List ℕ) (l : List α) : List α :=
  sampleBy os l.length l

/-- The random draws consumed by the nine random.sample / random.shuffle
calls of the script, in call order. -/
structure RandDraws where
  dF1 : List ℕ
  dSports : List ℕ
  dPolitics : List ℕ
  dEconomics : List ℕ
  dScience : List ℕ
  dCrypto : List ℕ
  dGeneral : List ℕ
  dRefill : List ℕ
  dShuffle : List ℕ

/-- random.sample(group, min(k, len(group))) for one category group. -/
def groupSample (pool : List MetaQ) (c : QCat) (k : ℕ) (os : List ℕ) :
    List MetaQ :=
  sampleBy os (min k (catGroup pool c).length) (catGroup pool c)

/-- Lines 65-73 of the script: at most `cap` F1-position questions, then
up to eight from each of the five keyword categories. -/
def baseSelection (pool : List MetaQ) (cap : ℕ) (r : RandDraws) :
    List MetaQ :=
  groupSample pool .f1 cap r.dF1 ++
    (groupSample pool .sports 8 r.dSports ++
      (groupSample pool .politics 8 r.dPolitics ++
        (groupSample pool .economics 8 r.dEconomics ++
          (groupSample pool .science 8 r.dScience ++
            groupSample pool .crypto 8 r.dCrypto))))

/-- Lines 76-78: fill the remainder from the general group. -/
def withGeneral (pool : List MetaQ) (target cap : ℕ) (r : RandDraws) :
    List MetaQ :=
  baseSelection pool cap r ++
    groupSample pool .general (target - (baseSelection pool cap r).length)
      r.dGeneral

/-- Line 82: every non-F1 question, in group order. -/
def allNonF1 (pool : List MetaQ) : List MetaQ :=
  catGroup pool .sports ++
    (catGroup pool .politics ++
      (catGroup pool .economics ++
        (catGroup pool .science ++
          (catGroup pool .crypto ++ catGroup pool .general))))

/-- Lines 81-86: when still short of the target, refill from all non-F1
questions not already selected. -/
def withRefill (pool : List MetaQ) (target cap : ℕ) (r : RandDraws) :
    List MetaQ :=
  if (withGeneral pool target cap r).length < target then
    withGeneral pool target cap r ++
      sampleBy r.dRefill
        (min (target - (withGeneral pool target cap r).length)
          ((allNonF1 pool).filter
            (fun q => decide (q ∉ withGeneral pool target cap r))).length)
        ((allNonF1 pool).filter
          (fun q => decide (q ∉ withGeneral pool target cap r)))
  else withGeneral pool target cap r

/-- The selection pipeline of curate_diverse_questions.py (lines 61-95):
capped F1 sample, eight per category, general fill, refill from all
unselected non-F1 questions, shuffle (line 89), truncate to the target
(line 95). -/
def curateSelect (pool : List MetaQ) (target cap : ℕ) (r : RandDraws) :
    List MetaQ :=
  (shuffleBy r.dShuffle (withRefill pool target cap r)).take target

/-- The number of eligible questions left once the F1 group is capped. -/
def cappedSize (pool : List MetaQ) (cap : ℕ) : ℕ :=
  min cap (catGroup pool .f1).length + (catGroup pool .sports).length +
    (catGroup pool .politics).length + (catGroup pool .economics).length +
    (catGroup pool .science).length + (catGroup pool .crypto).length +
    (catGroup pool .general).length

/-! ## Theorems: Scorer -/

/-- The clamp of LogScoreMetric lands in the closed band used to avoid
log 0. -/
theorem clampUnit_mem (q : ℚ) :
    1 / 1000 ≤ clampUnit q ∧ clampUnit q ≤ 999 / 1000 :=
  ⟨le_max_left _ _, max_le (by norm_num) (min_le_left _ _)⟩

/-- C1: on a success outcome with explicit probabilities in [0, 100], the
Brier metric returns 1 - (predicted/100 - market/100)^2, and this value
lies in [0, 1]. -/
theorem brier_score_correct (po mp : ℚ) (o : ForecastOutput) (it : Item)
    (hpo0 : 0 ≤ po) (hpo1 : po ≤ 100) (hmp0 : 0 ≤ mp) (hmp1 : mp ≤ 100)
    (herr : o.error = none) (hprob : o.probability = some po)
    (hmkt : it.market_probability = some mp) :
    (BrierScoreMetric.score o it).value = 1 - (po / 100 - mp / 100) ^ 2 ∧
      0 ≤ (BrierScoreMetric.score o it).value ∧
      (BrierScoreMetric.score o it).value ≤ 1 := by
  have hcond : (o.falsy || o.error.isSome) = false := by
    simp [ForecastOutput.falsy, hprob, herr]
  have hval : (BrierScoreMetric.score o it).value
      = 1 - (po / 100 - mp / 100) ^ 2 := by
    unfold BrierScoreMetric.score
    rw [hcond]
    simp [hprob, hmkt]
  refine ⟨hval, ?_, ?_⟩
  · rw [hval]
    have h1 : (0 : ℚ) ≤ 100 - (po - mp) := by linarith
    have h2 : (0 : ℚ) ≤ 100 + (po - mp) := by linarith
    nlinarith [mul_nonneg h1 h2]
  · rw [hval]
    nlinarith [sq_nonneg (po / 100 - mp / 100)]

/-- Closed instance of C1: predicted 70 against market 30 scores 0.84. -/
theorem brier_score_correct_witness :
    (BrierScoreMetric.score ⟨none, some 70, false⟩ ⟨some 30⟩).value = 84 / 100 ∧
      0 ≤ (BrierScoreMetric.score ⟨none, some 70, false⟩ ⟨some 30⟩).value ∧
      (BrierScoreMetric.score ⟨none, some 70, false⟩ ⟨some 30⟩).value ≤ 1 := by
  have h := brier_score_correct 70 30 ⟨none, some 70, false⟩ ⟨some 30⟩
    (by norm_num) (by norm_num) (by norm_num) (by norm_num) rfl rfl rfl
  refine ⟨?_, h.2⟩
  rw [h.1]
  norm_num

/-- C2: on a success outcome the log metric clamps both probabilities into
[0.001, 0.999] and returns exp(m log p + (1 - m) log (1 - p)); the value
lies in (0, 1]. -/
theorem log_score_correct (po mp : ℚ) (o : ForecastOutput) (it : Item)
    (hpo0 : 0 ≤ po) (hpo1 : po ≤ 100) (hmp0 : 0 ≤ mp) (hmp1 : mp ≤ 100)
    (herr : o.error = none) (hprob : o.probability = some po)
    (hmkt : it.market_probability = some mp) :
    (LogScoreMetric.score o it).value =
      Real.exp ((clampUnit (mp / 100) : ℝ) *
          Real.log (clampUnit (po / 100) : ℝ) +
        (1 - (clampUnit (mp / 100) : ℝ)) *
          Real.log (1 - (clampUnit (po / 100) : ℝ))) ∧
      0 < (LogScoreMetric.score o it).value ∧
      (LogScoreMetric.score o it).value ≤ 1 := by
  have hcond : (o.falsy || o.error.isSome) = false := by
    simp [ForecastOutput.falsy, hprob, herr]
  have hval : (LogScoreMetric.score o it).value =
      Real.exp ((clampUnit (mp / 100) : ℝ) *
          Real.log (clampUnit (po / 100) : ℝ) +
        (1 - (clampUnit (mp / 100) : ℝ)) *
          Real.log (1 - (clampUnit (po / 100) : ℝ))) := by
    unfold LogScoreMetric.score
    rw [hcond]
    simp [hprob, hmkt]
  refine ⟨hval, ?_, ?_⟩
  · rw [hval]; exact Real.exp_pos _
  · rw [hval]
    have hp := clampUnit_mem (po / 100)
    have hm := clampUnit_mem (mp / 100)
    have hp0 : (0 : ℝ) ≤ (clampUnit (po / 100) : ℝ) := by
      have := hp.1; rw [show (0:ℝ) = ((0:ℚ):ℝ) by norm_num]
      exact_mod_cast le_trans (by norm_num) this
    have hp1 : (clampUnit (po / 100) : ℝ) ≤ 1 := by
      have := hp.2
      calc (clampUnit (po / 100) : ℝ) ≤ ((999 / 1000 : ℚ) : ℝ) := by
            exact_mod_cast this
        _ ≤ 1 := by norm_num
    have hm0 : (0 : ℝ) ≤ (clampUnit (mp / 100) : ℝ) := by
      have := hm.1; rw [show (0:ℝ) = ((0:ℚ):ℝ) by norm_num]
      exact_mod_cast le_trans (by norm_num) this
    have hm1 : (clampUnit (mp / 100) : ℝ) ≤ 1 := by
      have := hm.2
      calc (clampUnit (mp / 100) : ℝ) ≤ ((999 / 1000 : ℚ) : ℝ) := by
            exact_mod_cast this
        _ ≤ 1 := by norm_num
    have hlogp : Real.log (clampUnit (po / 100) : ℝ) ≤ 0 :=
      Real.log_nonpos hp0 hp1
    have hlogq : Real.log (1 - (clampUnit (po / 100) : ℝ)) ≤ 0 :=
      Real.log_nonpos (by linarith) (by linarith)
    have hsum : (clampUnit (mp / 100) : ℝ) *
          Real.log (clampUnit (po / 100) : ℝ) +
        (1 - (clampUnit (mp / 100) : ℝ)) *
          Real.log (1 - (clampUnit (po / 100) : ℝ)) ≤ 0 := by
      have t1 := mul_nonpos_of_nonneg_of_nonpos hm0 hlogp
      have t2 := mul_nonpos_of_nonneg_of_nonpos (by linarith : (0:ℝ) ≤ 1 - (clampUnit (mp / 100) : ℝ)) hlogq
      linarith
    calc Real.exp _ ≤ Real.exp 0 := Real.exp_le_exp.2 hsum
      _ = 1 := Real.exp_zero

/-- Closed instance of C2: predicted 50 against market 50 scores exactly
one half. -/
theorem log_score_correct_witness :
    (LogScoreMetric.score ⟨none, some 50, false⟩ ⟨some 50⟩).value = 1 / 2 := by
  have h := log_score_correct 50 50 ⟨none, some 50, false⟩ ⟨some 50⟩
    (by norm_num) (by norm_num) (by norm_num) (by norm_num) rfl rfl rfl
  rw [h.1]
  have hc : clampUnit ((50 : ℚ) / 100) = 1 / 2 := by
    norm_num [clampUnit]
  rw [hc]
  have h2 : ((1 / 2 : ℚ) : ℝ) = 1 / 2 := by norm_num
  rw [h2]
  have h3 : (1 - (1 / 2 : ℝ)) = 1 / 2 := by norm_num
  rw [h3]
  have h4 : (1 / 2 : ℝ) * Real.log (1 / 2) + (1 / 2 : ℝ) * Real.log (1 / 2)
      = Real.log (1 / 2) := by ring
  rw [h4, Real.exp_log (by norm_num)]

/-- C3: an outcome carrying an error makes all three metrics return value
0 with reason "Error in forecast"; each metric is a total function, so the
failure is absorbed without raising and the run continues. -/
theorem error_outcome_scores_zero (o : ForecastOutput) (it : Item)
    (e : String) (herr : o.error = some e) :
    BrierScoreMetric.score o it = ⟨"brier_score", 0, "Error in forecast"⟩ ∧
      LogScoreMetric.score o it = ⟨"log_score", 0, "Error in forecast"⟩ ∧
      CalibrationMetric.score o it = ⟨"calibration", 0, "Error in forecast"⟩ := by
  have hcond : (o.falsy || o.error.isSome) = true := by simp [herr]
  unfold BrierScoreMetric.score LogScoreMetric.score CalibrationMetric.score
  rw [hcond]
  simp

/-- Closed instance of C3 at a concrete erroring outcome. -/
theorem error_outcome_scores_zero_witness :
    BrierScoreMetric.score ⟨some "timeout", none, false⟩ ⟨some 30⟩
        = ⟨"brier_score", 0, "Error in forecast"⟩ ∧
      LogScoreMetric.score ⟨some "timeout", none, false⟩ ⟨some 30⟩
        = ⟨"log_score", 0, "Error in forecast"⟩ ∧
      CalibrationMetric.score ⟨some "timeout", none, false⟩ ⟨some 30⟩
        = ⟨"calibration", 0, "Error in forecast"⟩ :=
  error_outcome_scores_zero ⟨some "timeout", none, false⟩ ⟨some 30⟩ "timeout" rfl

/-- C10: an empty (falsy) output dict takes the same branch as an explicit
error: every metric returns value 0 with reason "Error in forecast". -/
theorem empty_output_scores_zero (o : ForecastOutput) (it : Item)
    (hempty : o.falsy = true) :
    BrierScoreMetric.score o it = ⟨"brier_score", 0, "Error in forecast"⟩ ∧
      LogScoreMetric.score o it = ⟨"log_score", 0, "Error in forecast"⟩ ∧
      CalibrationMetric.score o it = ⟨"calibration", 0, "Error in forecast"⟩ := by
  have hcond : (o.falsy || o.error.isSome) = true := by simp [hempty]
  unfold BrierScoreMetric.score LogScoreMetric.score CalibrationMetric.score
  rw [hcond]
  simp

/-- Closed instance of C10 at the empty output dict. -/
theorem empty_output_scores_zero_witness :
    BrierScoreMetric.score ⟨none, none, false⟩ ⟨some 30⟩
        = ⟨"brier_score", 0, "Error in forecast"⟩ ∧
      LogScoreMetric.score ⟨none, none, false⟩ ⟨some 30⟩
        = ⟨"log_score", 0, "Error in forecast"⟩ ∧
      CalibrationMetric.score ⟨none, none, false⟩ ⟨some 30⟩
        = ⟨"calibration", 0, "Error in forecast"⟩ :=
  empty_output_scores_zero ⟨none, none, false⟩ ⟨some 30⟩ rfl

/-! ## Theorems: Categorizer -/

/-- starts tests exactly the existence of a suffix completing the
pattern. -/
theorem starts_iff (pat s : List Char) :
    starts pat s = true ↔ ∃ t, s = pat ++ t := by
  induction pat generalizing s with
  | nil => simp [starts]
  | cons a pat ih =>
    cases s with
    | nil => simp [starts]
    | cons b s =>
      simp only [starts, Bool.and_eq_true, beq_iff_eq, ih]
      constructor
      · rintro ⟨rfl, t, rfl⟩
        exact ⟨t, rfl⟩
      · rintro ⟨t, h⟩
        injection h with h1 h2
        exact ⟨h1.symm, t, h2⟩

/-- hasSub tests exactly the existence of a contiguous occurrence. -/
theorem hasSub_iff (pat s : List Char) :
    hasSub pat s = true ↔ ∃ u v, s = u ++ pat ++ v := by
  induction s with
  | nil =>
    simp only [hasSub, starts_iff]
    constructor
    · rintro ⟨t, h⟩
      exact ⟨[], t, by simpa using h⟩
    · rintro ⟨u, v, h⟩
      have h2 : u ++ (pat ++ v) = [] := by simpa using h.symm
      rw [List.append_eq_nil] at h2
      obtain ⟨hu, h3⟩ := h2
      rw [List.append_eq_nil] at h3
      exact ⟨[], by simp [h3.1]⟩
  | cons c s ih =>
    simp only [hasSub, Bool.or_eq_true, starts_iff, ih]
    constructor
    · rintro (⟨t, h⟩ | ⟨u, v, h⟩)
      · exact ⟨[], t, by simpa using h⟩
      · exact ⟨c :: u, v, by simp [h]⟩
    · rintro ⟨u, v, h⟩
      cases u with
      | nil => exact Or.inl ⟨v, by simpa using h⟩
      | cons x u =>
        right
        rw [List.cons_append, List.cons_append] at h
        injection h with h1 h2
        exact ⟨u, v, h2⟩

/-- ends tests exactly the existence of a completing suffix. -/
theorem ends_iff (pat s : List Char) :
    ends pat s = true ↔ ∃ t, s = t ++ pat := by
  rw [ends, starts_iff]
  constructor
  · rintro ⟨t, h⟩
    refine ⟨t.reverse, ?_⟩
    have h2 := congrArg List.reverse h
    simpa using h2
  · rintro ⟨t, rfl⟩
    exact ⟨t.reverse, by simp⟩

/-- The keyword test of classify_topic hits exactly when the keyword
occurs in the space-padded question flanked by the padding or by literal
spaces: an occurrence inside a longer word is never a hit. -/
theorem keywordHit_iff (ql kw : String) :
    keywordHit ql kw = true ↔
      ∃ u v, (' ' :: (ql.data ++ [' '])) = u ++ (' ' :: (kw.data ++ [' '])) ++ v := by
  unfold keywordHit strStarts
  simp only [Bool.or_eq_true]
  constructor
  · rintro ((h | h) | h)
    · exact (hasSub_iff _ _).1 h
    · obtain ⟨t, ht⟩ := (starts_iff _ _).1 h
      have hdata : (kw ++ " ").data = kw.data ++ [' '] := rfl
      rw [hdata] at ht
      refine ⟨[], t ++ [' '], ?_⟩
      simp [ht]
    · obtain ⟨t, ht⟩ := (ends_iff _ _).1 h
      exact ⟨' ' :: t, [], by simp [ht]⟩
  · rintro ⟨u, v, h⟩
    exact Or.inl (Or.inl ((hasSub_iff _ _).2 ⟨u, v, h⟩))

/-- A fold of maxStep that yields a pair either started from it or found
it in the list. -/
theorem foldl_maxStep_mem (l : List (String × ℕ)) :
    ∀ (acc : Option (String × ℕ)) (p : String × ℕ),
      l.foldl maxStep acc = some p → acc = some p ∨ p ∈ l := by
  induction l with
  | nil => exact fun acc p h => Or.inl h
  | cons a l ih =>
    intro acc p h
    rcases ih (maxStep acc a) p h with h1 | h1
    · cases acc with
      | none =>
        simp only [maxStep] at h1
        injection h1 with h1
        exact Or.inr (h1 ▸ List.mem_cons_self a l)
      | some q =>
        by_cases hq : q.2 < a.2
        · simp only [maxStep, if_pos hq] at h1
          injection h1 with h1
          exact Or.inr (h1 ▸ List.mem_cons_self a l)
        · simp only [maxStep, if_neg hq] at h1
          exact Or.inl h1
    · exact Or.inr (List.mem_cons_of_mem _ h1)

/-- The pair produced by a fold of maxStep dominates the list and the
start accumulator. -/
theorem foldl_maxStep_le (l : List (String × ℕ)) :
    ∀ (acc : Option (String × ℕ)) (p : String × ℕ),
      l.foldl maxStep acc = some p →
      (∀ q ∈ l, q.2 ≤ p.2) ∧ (∀ q, acc = some q → q.2 ≤ p.2) := by
  induction l with
  | nil =>
    intro acc p h
    refine ⟨by simp, fun q hq => ?_⟩
    rw [hq] at h
    injection h with h
    exact h ▸ le_refl _
  | cons a l ih =>
    intro acc p h
    obtain ⟨h1, h2⟩ := ih (maxStep acc a) p h
    have ha : a.2 ≤ p.2 := by
      cases acc with
      | none => exact h2 a rfl
      | some q =>
        by_cases hq : q.2 < a.2
        · exact h2 a (by simp [maxStep, if_pos hq])
        · exact le_trans (le_of_not_lt hq) (h2 q (by simp [maxStep, if_neg hq]))
    refine ⟨fun q hq => ?_, fun q hq => ?_⟩
    · rcases List.mem_cons.1 hq with rfl | hq
      · exact ha
      · exact h1 q hq
    · cases acc with
      | none => cases hq
      | some q0 =>
        injection hq with hq
        rw [← hq]
        by_cases hq0 : q0.2 < a.2
        · exact le_trans (le_of_lt hq0) ha
        · exact h2 q0 (by simp [maxStep, if_neg hq0])

/-- A fold of maxStep lands on the first maximum: either the accumulator
survives and dominates the whole list, or the result sits in the list
with everything before it (and the accumulator) strictly smaller and
everything after it no larger. -/
theorem foldl_maxStep_first (l : List (String × ℕ)) :
    ∀ (acc : Option (String × ℕ)) (p : String × ℕ),
      l.foldl maxStep acc = some p →
      (acc = some p ∧ ∀ x ∈ l, x.2 ≤ p.2) ∨
      (∃ pre post, l = pre ++ p :: post ∧
        (∀ q0, acc = some q0 → q0.2 < p.2) ∧
        (∀ x ∈ pre, x.2 < p.2) ∧ (∀ x ∈ post, x.2 ≤ p.2)) := by
  induction l with
  | nil =>
    intro acc p h
    exact Or.inl ⟨h, by simp⟩
  | cons a l ih =>
    intro acc p h
    rcases ih (maxStep acc a) p h with ⟨h1, h2⟩ |
      ⟨pre, post, heq, hacc, hpre, hpost⟩
    · cases acc with
      | none =>
        simp only [maxStep] at h1
        injection h1 with h1
        subst h1
        exact Or.inr ⟨[], l, rfl, by simp, by simp, h2⟩
      | some q =>
        by_cases hq : q.2 < a.2
        · simp only [maxStep, if_pos hq] at h1
          injection h1 with h1
          subst h1
          refine Or.inr ⟨[], l, rfl, ?_, by simp, h2⟩
          intro q0 hq0
          injection hq0 with hq0
          rw [← hq0]
          exact hq
        · simp only [maxStep, if_neg hq] at h1
          refine Or.inl ⟨h1, ?_⟩
          intro x hx
          rcases List.mem_cons.1 hx with rfl | hx
          · injection h1 with h1
            rw [← h1]
            exact le_of_not_lt hq
          · exact h2 x hx
    · have hstep : ∀ r, maxStep acc a = some r → a.2 ≤ r.2 := by
        intro r hr
        cases acc with
        | none =>
          simp only [maxStep] at hr
          injection hr with hr
          rw [← hr]
        | some q =>
          by_cases hq : q.2 < a.2
          · simp only [maxStep, if_pos hq] at hr
            injection hr with hr
            rw [← hr]
          · simp only [maxStep, if_neg hq] at hr
            injection hr with hr
            rw [← hr]
            exact le_of_not_lt hq
      have halt : a.2 < p.2 := by
        cases acc with
        | none => exact lt_of_le_of_lt (hstep a (by simp [maxStep])) (by
            exact hacc a (by simp [maxStep]))
        | some q =>
          by_cases hq : q.2 < a.2
          · exact hacc a (by simp [maxStep, if_pos hq])
          · exact lt_of_le_of_lt (le_of_not_lt hq)
              (hacc q (by simp [maxStep, if_neg hq]))
      have haccs : ∀ q0, acc = some q0 → q0.2 < p.2 := by
        intro q0 hq0
        subst hq0
        by_cases hq : q0.2 < a.2
        · exact lt_trans hq halt
        · exact hacc q0 (by simp [maxStep, if_neg hq])
      refine Or.inr ⟨a :: pre, post, by rw [heq]; rfl, haccs, ?_, hpost⟩
      intro x hx
      rcases List.mem_cons.1 hx with rfl | hx
      · exact halt
      · exact hpre x hx

/-- A fold of maxStep over a nonempty list never comes back empty. -/
theorem foldl_maxStep_ne_none (l : List (String × ℕ)) :
    ∀ acc, l.foldl maxStep acc = none → acc = none ∧ l = [] := by
  induction l with
  | nil => exact fun acc h => ⟨h, rfl⟩
  | cons a l ih =>
    intro acc h
    exfalso
    have h2 := (ih (maxStep acc a) h).1
    cases acc with
    | none => simp [maxStep] at h2
    | some q =>
      by_cases hq : q.2 < a.2 <;> simp [maxStep, hq] at h2

/-- maxBySnd returns the first maximal pair: the list splits around the
result, with strictly smaller seconds before it and no larger second
anywhere. -/
theorem maxBySnd_first {l : List (String × ℕ)} {p : String × ℕ}
    (h : maxBySnd l = some p) :
    ∃ pre post, l = pre ++ p :: post ∧
      (∀ x ∈ pre, x.2 < p.2) ∧ (∀ x ∈ l, x.2 ≤ p.2) := by
  rcases foldl_maxStep_first l none p h with ⟨h1, _⟩ |
    ⟨pre, post, heq, _, hpre, hpost⟩
  · cases h1
  · refine ⟨pre, post, heq, hpre, ?_⟩
    intro x hx
    rw [heq] at hx
    rcases List.mem_append.1 hx with hx | hx
    · exact le_of_lt (hpre x hx)
    · rcases List.mem_cons.1 hx with rfl | hx
      · exact le_refl _
      · exact hpost x hx

/-- A split of a filtered map pulls back to a split of the original list:
the element mapping onto the distinguished pair sits between a prefix
whose (filtered) image is the left part and the remaining suffix. -/
theorem filter_map_split {α β : Type} {f : α → β} {pos : β → Bool}
    {p : β} :
    ∀ {L : List α} {pre post : List β},
      (L.map f).filter pos = pre ++ p :: post →
      ∃ L1 x L2, L = L1 ++ x :: L2 ∧ f x = p ∧
        (L1.map f).filter pos = pre := by
  intro L
  induction L with
  | nil =>
    intro pre post h
    simp at h
  | cons a L ih =>
    intro pre post h
    rw [List.map_cons, List.filter_cons] at h
    by_cases hpos : pos (f a) = true
    · rw [if_pos hpos] at h
      cases pre with
      | nil =>
        simp only [List.nil_append] at h
        injection h with h1 h2
        exact ⟨[], a, L, rfl, h1, by simp⟩
      | cons c pre =>
        rw [List.cons_append] at h
        injection h with h1 h2
        obtain ⟨L1, x, L2, hL, hfx, hfil⟩ := ih h2
        refine ⟨a :: L1, x, L2, by rw [List.cons_append, hL], hfx, ?_⟩
        rw [List.map_cons, List.filter_cons, if_pos hpos, hfil, h1]
    · rw [if_neg hpos] at h
      obtain ⟨L1, x, L2, hL, hfx, hfil⟩ := ih h
      refine ⟨a :: L1, x, L2, by rw [List.cons_append, hL], hfx, ?_⟩
      rw [List.map_cons, List.filter_cons, if_neg hpos, hfil]

/-- C7: classify_topic lower-cases the question, counts keyword hits per
topic with boundary-respecting matching (keywordHit_iff above: a keyword
inside a longer word never counts, witnessed concretely by "pregame"),
returns a topic of maximal positive hit count with ties broken in favour
of the first-declared topic — the final conjunct characterizes every
question with at least one hit: the keyword table splits around the
returned topic, every earlier-declared topic scores strictly less and no
topic scores more — and returns "other" when nothing hits. -/
theorem classify_topic_spec :
    classify_topic "" = "other" ∧
    classify_topic "Will the Lakers win the NBA championship?" = "sports" ∧
    classify_topic "pregame" = "other" ∧
    classify_topic "game law" = "sports" ∧
    (∀ ql kw : String, keywordHit ql kw = true ↔
      ∃ u v, (' ' :: (ql.data ++ [' '])) = u ++ (' ' :: (kw.data ++ [' '])) ++ v) ∧
    (∀ q : String,
      (∀ tk ∈ TOPIC_KEYWORDS, topicScore (strToLower q) tk.2 = 0) →
      classify_topic q = "other") ∧
    (∀ q t : String, classify_topic q = t → t ≠ "other" →
      ∃ tk ∈ TOPIC_KEYWORDS, tk.1 = t ∧
        0 < topicScore (strToLower q) tk.2 ∧
        ∀ tk2 ∈ TOPIC_KEYWORDS,
          topicScore (strToLower q) tk2.2 ≤ topicScore (strToLower q) tk.2) ∧
    (∀ q : String, ∀ tk0 ∈ TOPIC_KEYWORDS,
      0 < topicScore (strToLower q) tk0.2 →
      ∃ pre tk post,
        TOPIC_KEYWORDS = pre ++ tk :: post ∧
          classify_topic q = tk.1 ∧ tk.1 ≠ "other" ∧
          0 < topicScore (strToLower q) tk.2 ∧
          (∀ tk2 ∈ TOPIC_KEYWORDS,
            topicScore (strToLower q) tk2.2
              ≤ topicScore (strToLower q) tk.2) ∧
          (∀ tk2 ∈ pre,
            topicScore (strToLower q) tk2.2
              < topicScore (strToLower q) tk.2)) := by
  refine ⟨by decide, by decide, by decide, by decide, keywordHit_iff,
    ?_, ?_, ?_⟩
  · intro q hzero
    unfold classify_topic
    have hnil : ((TOPIC_KEYWORDS.map
        (fun tk => (tk.1, topicScore (strToLower q) tk.2))).filter
        (fun p => decide (0 < p.2))) = [] := by
      rw [List.filter_eq_nil_iff]
      rintro p hp
      simp only [List.mem_map] at hp
      obtain ⟨tk, htk, rfl⟩ := hp
      simp [hzero tk htk]
    rw [hnil]
    rfl
  · intro q t ht hne
    unfold classify_topic at ht
    rcases hmax : maxBySnd ((TOPIC_KEYWORDS.map
        (fun tk => (tk.1, topicScore (strToLower q) tk.2))).filter
        (fun p => decide (0 < p.2))) with _ | p
    · rw [hmax] at ht
      exact absurd ht.symm hne
    · rw [hmax] at ht
      have ht2 : p.1 = t := ht
      have hmem := foldl_maxStep_mem _ none p hmax
      rcases hmem with h | h
      · cases h
      · have hle := (foldl_maxStep_le _ none p hmax).1
        have hpos : 0 < p.2 := by
          have := List.of_mem_filter h
          simpa using this
        have h3 : p ∈ (TOPIC_KEYWORDS.map
            (fun tk => (tk.1, topicScore (strToLower q) tk.2))) :=
          List.mem_of_mem_filter h
        simp only [List.mem_map] at h3
        obtain ⟨tk, htk, hp⟩ := h3
        refine ⟨tk, htk, ?_, ?_, ?_⟩
        · rw [← ht2, ← hp]
        · have : p.2 = topicScore (strToLower q) tk.2 := by rw [← hp]
          rw [← this]
          exact hpos
        · intro tk2 htk2
          have hsnd : p.2 = topicScore (strToLower q) tk.2 := by rw [← hp]
          rw [← hsnd]
          by_cases hz : topicScore (strToLower q) tk2.2 = 0
          · rw [hz]; exact Nat.zero_le _
          · have hpos2 : 0 < topicScore (strToLower q) tk2.2 :=
              Nat.pos_of_ne_zero hz
            have hmem2 : (tk2.1, topicScore (strToLower q) tk2.2) ∈
                ((TOPIC_KEYWORDS.map
                  (fun tk => (tk.1, topicScore (strToLower q) tk.2))).filter
                  (fun p => decide (0 < p.2))) := by
              rw [List.mem_filter]
              exact ⟨List.mem_map_of_mem _ htk2, by simpa using hpos2⟩
            simpa using hle _ hmem2
  · intro q tk0 htk0 hpos0
    rcases hmax : maxBySnd ((TOPIC_KEYWORDS.map
        (fun tk => (tk.1, topicScore (strToLower q) tk.2))).filter
        (fun p => decide (0 < p.2))) with _ | p
    · exfalso
      have hnil := (foldl_maxStep_ne_none _ none hmax).2
      have hmem0 : (tk0.1, topicScore (strToLower q) tk0.2) ∈
          ((TOPIC_KEYWORDS.map
            (fun tk => (tk.1, topicScore (strToLower q) tk.2))).filter
            (fun p => decide (0 < p.2))) := by
        rw [List.mem_filter]
        exact ⟨List.mem_map_of_mem _ htk0, by simpa using hpos0⟩
      rw [hnil] at hmem0
      cases hmem0
    · have hres : classify_topic q = p.1 := by
        unfold classify_topic
        rw [hmax]
      obtain ⟨pre, post, heq, hpre, hall⟩ := maxBySnd_first hmax
      obtain ⟨L1, x, L2, hL, hfx, hfil⟩ := filter_map_split heq
      have hx2 : p.2 = topicScore (strToLower q) x.2 := by rw [← hfx]
      have hxmem : x ∈ TOPIC_KEYWORDS := by
        rw [hL]
        exact List.mem_append_right _ (List.mem_cons_self _ _)
      have hppos : 0 < p.2 := by
        have hpmem : p ∈ ((TOPIC_KEYWORDS.map
            (fun tk => (tk.1, topicScore (strToLower q) tk.2))).filter
            (fun p => decide (0 < p.2))) := by
          rw [heq]
          exact List.mem_append_right _ (List.mem_cons_self _ _)
        have := List.of_mem_filter hpmem
        simpa using this
      refine ⟨L1, x, L2, hL, ?_, ?_, ?_, ?_, ?_⟩
      · rw [hres, ← hfx]
      · intro hcontra
        have hname : x.1 ∈ TOPIC_KEYWORDS.map Prod.fst :=
          List.mem_map_of_mem _ hxmem
        rw [hcontra] at hname
        exact absurd hname (by decide)
      · rw [← hx2]
        exact hppos
      · intro tk2 htk2
        rw [← hx2]
        by_cases hz : topicScore (strToLower q) tk2.2 = 0
        · rw [hz]
          exact Nat.zero_le _
        · have hmem2 : (tk2.1, topicScore (strToLower q) tk2.2) ∈
              ((TOPIC_KEYWORDS.map
                (fun tk => (tk.1, topicScore (strToLower q) tk.2))).filter
                (fun p => decide (0 < p.2))) := by
            rw [List.mem_filter]
            exact ⟨List.mem_map_of_mem _ htk2,
              by simpa using Nat.pos_of_ne_zero hz⟩
          simpa using hall _ hmem2
      · intro tk2 htk2
        rw [← hx2]
        by_cases hz : topicScore (strToLower q) tk2.2 = 0
        · rw [hz]
          exact hppos
        · have hmem3 : (tk2.1, topicScore (strToLower q) tk2.2) ∈
              ((L1.map
                (fun tk => (tk.1, topicScore (strToLower q) tk.2))).filter
                (fun p => decide (0 < p.2))) := by
            rw [List.mem_filter]
            exact ⟨List.mem_map_of_mem _ htk2,
              by simpa using Nat.pos_of_ne_zero hz⟩
          rw [hfil] at hmem3
          simpa using hpre _ hmem3

/-- Closed instance of C7 parts with hypotheses: the keyword "nba" hits
the Lakers question, a zero-score question classifies as "other", and
the tied question "game law" is characterized as won by the first
maximal topic. -/
theorem classify_topic_spec_witness :
    keywordHit "will the lakers win the nba championship?" "nba" = true ∧
      classify_topic "zzz" = "other" ∧
      (∃ pre tk post,
        TOPIC_KEYWORDS = pre ++ tk :: post ∧
          classify_topic "game law" = tk.1 ∧ tk.1 ≠ "other" ∧
          0 < topicScore (strToLower "game law") tk.2 ∧
          (∀ tk2 ∈ TOPIC_KEYWORDS,
            topicScore (strToLower "game law") tk2.2
              ≤ topicScore (strToLower "game law") tk.2) ∧
          (∀ tk2 ∈ pre,
            topicScore (strToLower "game law") tk2.2
              < topicScore (strToLower "game law") tk.2)) := by
  refine ⟨?_, ?_, ?_⟩
  · exact (classify_topic_spec.2.2.2.2.1
      "will the lakers win the nba championship?" "nba").2
      ⟨" will the lakers win the".data, "championship? ".data, by decide⟩
  · exact classify_topic_spec.2.2.2.2.2.1 "zzz" (by decide)
  · exact classify_topic_spec.2.2.2.2.2.2.2 "game law"
      (TOPIC_KEYWORDS.get ⟨0, by decide⟩)
      (List.get_mem TOPIC_KEYWORDS 0 (by decide)) (by decide)

/-- C4 counterexample: at market_probability = 100 the attached bucket is
"100-110%", which is not one of the ten fixed labels. -/
theorem bucket_at_100_outside_labels :
    (categorize_question ⟨"q", some 100⟩).probability_bucket = "100-110%" ∧
      "100-110%" ∉ tenBucketLabels := by
  constructor
  · show probabilityBucketStr ((some (100 : ℚ)).getD 50) = "100-110%"
    unfold probabilityBucketStr
    norm_num
    decide
  · decide

/-- C4 (amended): for market_probability in [0, 100) the attached bucket
is the floor-to-10 label, always one of the ten fixed 10-point labels. -/
theorem bucket_in_labels (q : QuestionData) (v : ℚ)
    (hv : q.market_probability = some v) (h0 : 0 ≤ v) (h1 : v < 100) :
    (categorize_question q).probability_bucket =
        tenBucketLabels.getD (⌊v / 10⌋).toNat "" ∧
      (categorize_question q).probability_bucket ∈ tenBucketLabels := by
  have hb : (categorize_question q).probability_bucket
      = probabilityBucketStr v := by
    show probabilityBucketStr (q.market_probability.getD 50) = _
    rw [hv]
    rfl
  have hk0 : 0 ≤ ⌊v / 10⌋ := Int.floor_nonneg.2 (by positivity)
  have hk9 : ⌊v / 10⌋ < 10 := by
    rw [Int.floor_lt]
    push_cast
    linarith
  rw [hb]
  unfold probabilityBucketStr
  set k := ⌊v / 10⌋ with hkdef
  clear_value k
  interval_cases k <;> exact ⟨by decide, by decide⟩

/-- Closed instance of C4 (amended): bucket at 15 is "10-20%" and bucket
at 95 is "90-100%". -/
theorem bucket_in_labels_witness :
    (categorize_question ⟨"", some 15⟩).probability_bucket = "10-20%" ∧
      (categorize_question ⟨"", some 95⟩).probability_bucket = "90-100%" := by
  have h15 := bucket_in_labels ⟨"", some 15⟩ 15 rfl (by norm_num) (by norm_num)
  have h95 := bucket_in_labels ⟨"", some 95⟩ 95 rfl (by norm_num) (by norm_num)
  have hf15 : ⌊(15 : ℚ) / 10⌋ = 1 := by norm_num
  have hf95 : ⌊(95 : ℚ) / 10⌋ = 9 := by norm_num
  constructor
  · rw [h15.1, hf15]
    decide
  · rw [h95.1, hf95]
    decide

/-! ## Theorems: CostAccountant -/

/-- C5: an unknown model never errors: calculate_cost falls back to the
claude-opus-4-20250514 row (15 / 75 USD per million) and returns the
token-linear cost rounded to six decimals. -/
theorem calculate_cost_fallback (model : String) (tin tout : ℤ)
    (h0 : 0 ≤ tin) (h1 : 0 ≤ tout)
    (hunk : model ∉ MODEL_PRICING.map Prod.fst) :
    calculate_cost model tin tout
        = round6 ((tin : ℚ) / 1000000 * 15 + (tout : ℚ) / 1000000 * 75) ∧
      calculate_cost model tin tout
        = calculate_cost "claude-opus-4-20250514" tin tout := by
  have hfind : MODEL_PRICING.find? (fun p => p.1 == model) = none := by
    rw [List.find?_eq_none]
    intro p hp
    simp only [beq_iff_eq]
    intro hcontra
    exact hunk (hcontra ▸ List.mem_map_of_mem Prod.fst hp)
  have hopus : MODEL_PRICING.find?
      (fun p => p.1 == "claude-opus-4-20250514")
      = some ("claude-opus-4-20250514", (15, 75)) := by decide
  constructor
  · unfold calculate_cost
    rw [hfind, hopus]
    rfl
  · unfold calculate_cost
    rw [hfind, hopus]
    rfl

/-- Closed instance of C5: an unknown model with 2000 input and 500 output
tokens costs 0.0675 USD. -/
theorem calculate_cost_fallback_witness :
    calculate_cost "gpt-4" 2000 500 = 675 / 10000 ∧
      calculate_cost "gpt-4" 2000 500
        = calculate_cost "claude-opus-4-20250514" 2000 500 := by
  have h := calculate_cost_fallback "gpt-4" 2000 500 (by norm_num)
    (by norm_num) (by decide)
  refine ⟨?_, h.2⟩
  rw [h.1]
  norm_num [round6, roundHalfEven]

/-! ## Theorems: probability normalization -/

/-- C6 counterexample: normalize_probability leaves 150 at 150, above
100 — the shared loader helper has no divide-by-100 loop. -/
theorem normalize_probability_at_150 :
    normalize_probability 150 = 150 ∧ ¬(normalize_probability 150 ≤ 100) := by
  constructor
  · norm_num [normalize_probability]
  · norm_num [normalize_probability]

/-- The divide-by-100 loop of the balanced branch always lands at or
below 100, and preserves nonnegativity. -/
theorem fixOverScaled_le_100 (v : ℚ) :
    fixOverScaled v ≤ 100 ∧ (0 ≤ v → 0 ≤ fixOverScaled v) := by
  have key : ∀ (n : ℕ) (w : ℚ), (⌈w⌉).toNat ≤ n →
      fixOverScaled w ≤ 100 ∧ (0 ≤ w → 0 ≤ fixOverScaled w) := by
    intro n
    induction n with
    | zero =>
      intro w hw
      have hw0 : ⌈w⌉ ≤ 0 := by omega
      have hwle : w ≤ 100 := by
        have := Int.le_ceil w
        have h2 : ((⌈w⌉ : ℚ)) ≤ 0 := by exact_mod_cast hw0
        linarith
      rw [fixOverScaled, if_neg (not_lt.2 hwle)]
      exact ⟨hwle, fun h => h⟩
    | succ n ih =>
      intro w hw
      by_cases hgt : 100 < w
      · have hceil : (100 : ℤ) < ⌈w⌉ := by
          have h1 : ((100 : ℤ) : ℚ) < w := by exact_mod_cast hgt
          have h2 := Int.le_ceil w
          exact_mod_cast lt_of_lt_of_le h1 h2
        have hdec : ⌈w / 100⌉ ≤ ⌈w⌉ - 99 := by
          rw [Int.ceil_le]
          push_cast
          have := Int.le_ceil w
          linarith
        have hmeas : (⌈w / 100⌉).toNat ≤ n := by omega
        rw [fixOverScaled, if_pos hgt]
        obtain ⟨ha, hb⟩ := ih (w / 100) hmeas
        exact ⟨ha, fun h => hb (by positivity)⟩
      · rw [fixOverScaled, if_neg hgt]
        exact ⟨not_lt.1 hgt, fun h => h⟩
  exact key (⌈v⌉).toNat v le_rfl

/-- C6 (amended): normalize_probability only rescales fraction-shaped
values (at most 1) and passes everything else through unchanged, so
values above 100 survive it; the balanced branch alone runs the
divide-by-100 loop (always ending at or below 100) and clamps, so every
balanced-loaded market_probability lies in [0, 100]. -/
theorem normalization_amended :
    (∀ v : ℚ, v ≤ 1 → normalize_probability v = v * 100) ∧
      (∀ v : ℚ, 1 < v → normalize_probability v = v) ∧
      (∀ v : ℚ, fixOverScaled v ≤ 100) ∧
      (∀ v : ℚ, 0 ≤ balancedFix v ∧ balancedFix v ≤ 100) := by
  refine ⟨?_, ?_, ?_, ?_⟩
  · intro v hv
    rw [normalize_probability, if_pos hv]
  · intro v hv
    rw [normalize_probability, if_neg (not_le.2 hv)]
  · exact fun v => (fixOverScaled_le_100 v).1
  · intro v
    unfold balancedFix
    constructor
    · exact le_min (by norm_num) (le_max_left 0 _)
    · exact min_le_left _ _

/-- Closed instance of C6 (amended): 0.5 becomes 50, 150 stays 150 under
normalize_probability, and the balanced fix clamps 12345 into range. -/
theorem normalization_amended_witness :
    normalize_probability (1 / 2) = 50 ∧
      normalize_probability 150 = 150 ∧
      0 ≤ balancedFix 12345 ∧ balancedFix 12345 ≤ 100 := by
  refine ⟨?_, ?_, (normalization_amended.2.2.2 12345).1,
    (normalization_amended.2.2.2 12345).2⟩
  · rw [normalization_amended.1 (1 / 2) (by norm_num)]
    norm_num
  · exact normalization_amended.2.1 150 (by norm_num)

/-! ## Theorems: Curator -/

/-- Moving the element at a valid index to the front is a permutation. -/
theorem get_cons_eraseIdx_perm {α : Type} (l : List α) (i : ℕ)
    (h : i < l.length) : List.Perm (l.get ⟨i, h⟩ :: l.eraseIdx i) l := by
  conv_rhs => rw [← List.take_append_drop i l]
  rw [List.eraseIdx_eq_take_drop_succ]
  have hdrop : l.drop i = l.get ⟨i, h⟩ :: l.drop (i + 1) := by
    rw [List.drop_eq_getElem_cons h]
    rfl
  rw [hdrop]
  exact List.perm_middle.symm

/-- A draw-driven sample has exactly min k (length) elements. -/
theorem sampleBy_length {α : Type} (k : ℕ) :
    ∀ (os : List ℕ) (l : List α),
      (sampleBy os k l).length = min k l.length := by
  induction k with
  | zero => intro os l; simp [sampleBy]
  | succ k ih =>
    intro os l
    cases l with
    | nil => simp [sampleBy]
    | cons a tl =>
      cases os with
      | nil =>
        rw [sampleBy]
        exact List.length_take _ _
      | cons o os =>
        have hlt : o % (a :: tl).length < (a :: tl).length :=
          Nat.mod_lt o (by simp)
        have hlen := List.length_eraseIdx_add_one hlt
        rw [sampleBy]
        simp only [List.length_cons]
        rw [ih]
        simp only [List.length_cons] at hlen
        omega

/-- A draw-driven sample takes its elements from the list, without
replacement. -/
theorem sampleBy_subperm {α : Type} (k : ℕ) :
    ∀ (os : List ℕ) (l : List α), List.Subperm (sampleBy os k l) l := by
  induction k with
  | zero => intro os l; simp [sampleBy]
  | succ k ih =>
    intro os l
    cases l with
    | nil => simp [sampleBy]
    | cons a tl =>
      cases os with
      | nil =>
        rw [sampleBy]
        exact (List.take_sublist _ _).subperm
      | cons o os =>
        rw [sampleBy]
        have hlt : o % (a :: tl).length < (a :: tl).length :=
          Nat.mod_lt o (by simp)
        obtain ⟨u, hu1, hu2⟩ :=
          ih os ((a :: tl).eraseIdx (o % (a :: tl).length))
        exact List.Subperm.trans ⟨_ :: u, hu1.cons _, hu2.cons₂ _⟩
          (get_cons_eraseIdx_perm (a :: tl) _ hlt).subperm

/-- Subpermutations of duplicate-free lists are duplicate-free. -/
theorem subperm_nodup {α : Type} {s t : List α} (h : List.Subperm s t)
    (ht : t.Nodup) : s.Nodup := by
  obtain ⟨u, hu1, hu2⟩ := h
  exact hu1.nodup (ht.sublist hu2)

/-- Membership in a category group. -/
theorem mem_catGroup {pool : List MetaQ} {c : QCat} {q : MetaQ} :
    q ∈ catGroup pool c ↔ q ∈ pool ∧ eligible q = true ∧ catOf q = c := by
  simp only [catGroup, List.mem_filter, beq_iff_eq]
  tauto

/-- Category groups of a duplicate-free pool are duplicate-free. -/
theorem catGroup_nodup {pool : List MetaQ} (h : pool.Nodup) (c : QCat) :
    (catGroup pool c).Nodup :=
  (h.filter _).filter _

/-- A group sample draws from its group without replacement. -/
theorem groupSample_subperm (pool : List MetaQ) (c : QCat) (k : ℕ)
    (os : List ℕ) :
    List.Subperm (groupSample pool c k os) (catGroup pool c) :=
  sampleBy_subperm _ _ _

/-- A group sample has min k (group size) elements. -/
theorem groupSample_length (pool : List MetaQ) (c : QCat) (k : ℕ)
    (os : List ℕ) :
    (groupSample pool c k os).length = min k (catGroup pool c).length := by
  unfold groupSample
  rw [sampleBy_length, min_assoc, min_self]

/-- Everything a group sample picks belongs to that category. -/
theorem groupSample_cat {pool : List MetaQ} {c : QCat} {k : ℕ}
    {os : List ℕ} {q : MetaQ} (h : q ∈ groupSample pool c k os) :
    catOf q = c :=
  (mem_catGroup.1 ((groupSample_subperm pool c k os).subset h)).2.2

/-- Group samples of a duplicate-free pool are duplicate-free. -/
theorem groupSample_nodup {pool : List MetaQ} (hnd : pool.Nodup) (c : QCat)
    (k : ℕ) (os : List ℕ) : (groupSample pool c k os).Nodup :=
  subperm_nodup (groupSample_subperm pool c k os) (catGroup_nodup hnd c)

/-- An append of two duplicate-free lists with no common member is
duplicate-free. -/
theorem nodup_append_disjoint {l1 l2 : List MetaQ}
    (n1 : l1.Nodup) (n2 : l2.Nodup)
    (hd : ∀ q ∈ l1, q ∈ l2 → False) : (l1 ++ l2).Nodup := by
  rw [List.nodup_append]
  exact ⟨n1, n2, fun a ha hb => hd a ha hb⟩

/-- Appending two duplicate-free runs whose categories come from
disjoint sets is duplicate-free, with the categories accumulating. -/
theorem nodup_cat_append (cs1 cs2 : List QCat) {l1 l2 : List MetaQ}
    (h1 : ∀ q ∈ l1, catOf q ∈ cs1) (h2 : ∀ q ∈ l2, catOf q ∈ cs2)
    (hdisj : ∀ c ∈ cs1, c ∉ cs2)
    (n1 : l1.Nodup) (n2 : l2.Nodup) :
    (l1 ++ l2).Nodup ∧ ∀ q ∈ l1 ++ l2, catOf q ∈ cs1 ++ cs2 := by
  constructor
  · exact nodup_append_disjoint n1 n2
      (fun q hq1 hq2 => hdisj _ (h1 q hq1) (h2 q hq2))
  · intro q hq
    rcases List.mem_append.1 hq with h | h
    · exact List.mem_append_left _ (h1 q h)
    · exact List.mem_append_right _ (h2 q h)

/-- Every non-F1 question of the union list carries one of the six
non-F1 categories. -/
theorem allNonF1_facts (pool : List MetaQ) (hnd : pool.Nodup) :
    (allNonF1 pool).Nodup ∧
      ∀ q ∈ allNonF1 pool, catOf q ∈
        [QCat.sports, QCat.politics, QCat.economics, QCat.science,
          QCat.crypto, QCat.general] := by
  have base : ∀ c : QCat, ∀ q ∈ catGroup pool c, catOf q ∈ [c] := by
    intro c q h
    rw [(mem_catGroup.1 h).2.2]
    simp
  have h1 := nodup_cat_append [QCat.crypto] [QCat.general]
    (base _) (base _) (by decide) (catGroup_nodup hnd _) (catGroup_nodup hnd _)
  have h2 := nodup_cat_append [QCat.science] [QCat.crypto, QCat.general]
    (base _) h1.2 (by decide) (catGroup_nodup hnd _) h1.1
  have h3 := nodup_cat_append [QCat.economics]
    [QCat.science, QCat.crypto, QCat.general]
    (base _) h2.2 (by decide) (catGroup_nodup hnd _) h2.1
  have h4 := nodup_cat_append [QCat.politics]
    [QCat.economics, QCat.science, QCat.crypto, QCat.general]
    (base _) h3.2 (by decide) (catGroup_nodup hnd _) h3.1
  have h5 := nodup_cat_append [QCat.sports]
    [QCat.politics, QCat.economics, QCat.science, QCat.crypto, QCat.general]
    (base _) h4.2 (by decide) (catGroup_nodup hnd _) h4.1
  exact ⟨h5.1, h5.2⟩

/-- Structure of the selection after the general fill: the F1 sample in
front, followed by duplicate-free non-F1 material. -/
theorem withGeneral_decomp (pool : List MetaQ) (target cap : ℕ)
    (r : RandDraws) (hnd : pool.Nodup) :
    ∃ rest : List MetaQ,
      withGeneral pool target cap r
          = groupSample pool QCat.f1 cap r.dF1 ++ rest ∧
        (∀ q ∈ rest, q ∈ allNonF1 pool) ∧
        rest.Nodup ∧
        (withGeneral pool target cap r).Nodup := by
  have gcat : ∀ (c : QCat) (k : ℕ) (os : List ℕ),
      ∀ q ∈ groupSample pool c k os, catOf q ∈ [c] := by
    intro c k os q h
    rw [groupSample_cat h]
    simp
  have gsub : ∀ (c : QCat) (k : ℕ) (os : List ℕ),
      ∀ q ∈ groupSample pool c k os, q ∈ catGroup pool c :=
    fun c k os q h => (groupSample_subperm pool c k os).subset h
  have h1 := nodup_cat_append [QCat.science] [QCat.crypto]
    (gcat QCat.science 8 r.dScience) (gcat QCat.crypto 8 r.dCrypto)
    (by decide) (groupSample_nodup hnd _ _ _) (groupSample_nodup hnd _ _ _)
  have h2 := nodup_cat_append [QCat.economics] [QCat.science, QCat.crypto]
    (gcat QCat.economics 8 r.dEconomics) h1.2 (by decide)
    (groupSample_nodup hnd _ _ _) h1.1
  have h3 := nodup_cat_append [QCat.politics]
    [QCat.economics, QCat.science, QCat.crypto]
    (gcat QCat.politics 8 r.dPolitics) h2.2 (by decide)
    (groupSample_nodup hnd _ _ _) h2.1
  have h4 := nodup_cat_append [QCat.sports]
    [QCat.politics, QCat.economics, QCat.science, QCat.crypto]
    (gcat QCat.sports 8 r.dSports) h3.2 (by decide)
    (groupSample_nodup hnd _ _ _) h3.1
  have h5 := nodup_cat_append
    [QCat.sports, QCat.politics, QCat.economics, QCat.science, QCat.crypto]
    [QCat.general] h4.2
    (gcat QCat.general (target - (baseSelection pool cap r).length) r.dGeneral)
    (by decide) h4.1 (groupSample_nodup hnd _ _ _)
  have h6 := nodup_cat_append [QCat.f1]
    [QCat.sports, QCat.politics, QCat.economics, QCat.science, QCat.crypto,
      QCat.general]
    (gcat QCat.f1 cap r.dF1) h5.2 (by decide)
    (groupSample_nodup hnd _ _ _) h5.1
  have hshape : withGeneral pool target cap r
      = groupSample pool QCat.f1 cap r.dF1 ++
        ((groupSample pool QCat.sports 8 r.dSports ++
          (groupSample pool QCat.politics 8 r.dPolitics ++
            (groupSample pool QCat.economics 8 r.dEconomics ++
              (groupSample pool QCat.science 8 r.dScience ++
                groupSample pool QCat.crypto 8 r.dCrypto)))) ++
          groupSample pool QCat.general
            (target - (baseSelection pool cap r).length) r.dGeneral) := by
    unfold withGeneral baseSelection
    rw [List.append_assoc]
  refine ⟨_, hshape, ?_, h5.1, ?_⟩
  · intro q hq
    unfold allNonF1
    rcases List.mem_append.1 hq with h | h
    · rcases List.mem_append.1 h with h | h
      · exact List.mem_append_left _ (gsub _ _ _ _ h)
      · rcases List.mem_append.1 h with h | h
        · exact List.mem_append_right _
            (List.mem_append_left _ (gsub _ _ _ _ h))
        · rcases List.mem_append.1 h with h | h
          · exact List.mem_append_right _ (List.mem_append_right _
              (List.mem_append_left _ (gsub _ _ _ _ h)))
          · rcases List.mem_append.1 h with h | h
            · exact List.mem_append_right _ (List.mem_append_right _
                (List.mem_append_right _
                  (List.mem_append_left _ (gsub _ _ _ _ h))))
            · exact List.mem_append_right _ (List.mem_append_right _
                (List.mem_append_right _ (List.mem_append_right _
                  (List.mem_append_left _ (gsub _ _ _ _ h)))))
    · exact List.mem_append_right _ (List.mem_append_right _
        (List.mem_append_right _ (List.mem_append_right _
          (List.mem_append_right _ (gsub _ _ _ _ h)))))
  · rw [hshape]
    exact h6.1

/-- A draw-driven shuffle permutes the list. -/
theorem shuffleBy_perm {α : Type} (os : List ℕ) (l : List α) :
    List.Perm (shuffleBy os l) l := by
  have hsub := sampleBy_subperm l.length os l
  have hlen : (sampleBy os l.length l).length = l.length := by
    rw [sampleBy_length]
    simp
  exact hsub.perm_of_length_le (le_of_eq hlen.symm)

/-- Splitting a list by a Boolean test splits its length. -/
theorem length_filter_not {α : Type} (p : α → Bool) (l : List α) :
    (l.filter (fun a => !p a)).length + (l.filter p).length = l.length := by
  induction l with
  | nil => rfl
  | cons a l ih =>
    by_cases h : p a = true
    · simp [List.filter_cons, h]
      omega
    · simp only [Bool.not_eq_true] at h
      simp [List.filter_cons, h]
      omega

/-- C8: for every pool and every behaviour of the random sampler, the
curated selection has exactly min target (size of the pool after the F1
near-duplicate cap) items, contains no item twice, and draws at most cap
F1-position questions.  The script instantiates target = 50, cap = 2. -/
theorem curate_select_spec (pool : List MetaQ) (target cap : ℕ)
    (r : RandDraws) (hnd : pool.Nodup) :
    (curateSelect pool target cap r).length
        = min target (cappedSize pool cap) ∧
      (curateSelect pool target cap r).Nodup ∧
      (curateSelect pool target cap r).countP
          (fun q => catOf q == QCat.f1) ≤ cap := by
  obtain ⟨rest, hshape, hrestsub, hrestnd, h7nd⟩ :=
    withGeneral_decomp pool target cap r hnd
  obtain ⟨hannd, hancat⟩ := allNonF1_facts pool hnd
  have hsFlen : (groupSample pool QCat.f1 cap r.dF1).length
      = min cap (catGroup pool QCat.f1).length :=
    groupSample_length pool QCat.f1 cap r.dF1
  have hcapeq : cappedSize pool cap
      = min cap (catGroup pool QCat.f1).length + (allNonF1 pool).length := by
    unfold cappedSize allNonF1
    simp only [List.length_append]
    omega
  have hrestA : List.Subperm rest (allNonF1 pool) :=
    hrestnd.subperm (fun {q} h => hrestsub q h)
  have hrestlen : rest.length ≤ (allNonF1 pool).length := hrestA.length_le
  have hs7len : (withGeneral pool target cap r).length
      = min cap (catGroup pool QCat.f1).length + rest.length := by
    rw [hshape, List.length_append, hsFlen]
  have hnonf1cat : ∀ q ∈ allNonF1 pool, (catOf q == QCat.f1) = false := by
    intro q h
    have hc := hancat q h
    have hne : catOf q ≠ QCat.f1 := by
      intro he
      rw [he] at hc
      exact absurd hc (by decide)
    simp [hne]
  have hcount7 : (withGeneral pool target cap r).countP
      (fun q => catOf q == QCat.f1) ≤ cap := by
    rw [hshape, List.countP_append]
    have h1 : (groupSample pool QCat.f1 cap r.dF1).countP
        (fun q => catOf q == QCat.f1)
        ≤ (groupSample pool QCat.f1 cap r.dF1).length :=
      List.countP_le_length _
    have h2 : rest.countP (fun q => catOf q == QCat.f1) = 0 :=
      List.countP_eq_zero.2
        (fun q h => by simp [hnonf1cat q (hrestsub q h)])
    rw [h2]
    rw [hsFlen] at h1
    omega
  have hmain : (withRefill pool target cap r).Nodup ∧
      (withRefill pool target cap r).length ≤ cappedSize pool cap ∧
      min target (withRefill pool target cap r).length
        = min target (cappedSize pool cap) ∧
      (withRefill pool target cap r).countP (fun q => catOf q == QCat.f1)
        ≤ cap := by
    by_cases hlt : (withGeneral pool target cap r).length < target
    · set avail := (allNonF1 pool).filter
        (fun q => decide (q ∉ withGeneral pool target cap r)) with hav
      have hs8 : withRefill pool target cap r
          = withGeneral pool target cap r ++
            sampleBy r.dRefill
              (min (target - (withGeneral pool target cap r).length)
                avail.length) avail := by
        unfold withRefill
        rw [if_pos hlt]
      have havailnd : avail.Nodup := hannd.filter _
      have hmemavail : ∀ q ∈ avail,
          q ∈ allNonF1 pool ∧ q ∉ withGeneral pool target cap r := by
        intro q h
        rw [hav] at h
        have := List.mem_filter.1 h
        exact ⟨this.1, by simpa using this.2⟩
      have hrefsub := sampleBy_subperm
        (min (target - (withGeneral pool target cap r).length) avail.length)
        r.dRefill avail
      have hrefnd := subperm_nodup hrefsub havailnd
      have hreflen : (sampleBy r.dRefill
          (min (target - (withGeneral pool target cap r).length)
            avail.length) avail).length
          = min (target - (withGeneral pool target cap r).length)
              avail.length := by
        rw [sampleBy_length, min_assoc, min_self]
      -- the selected non-F1 items are exactly the ones filtered out
      have hcnt1 : rest.length ≤ ((allNonF1 pool).filter
          (fun q => decide (q ∈ withGeneral pool target cap r))).length := by
        have hsub2 : List.Subperm rest ((allNonF1 pool).filter
            (fun q => decide (q ∈ withGeneral pool target cap r))) := by
          apply hrestnd.subperm
          intro q h
          rw [List.mem_filter]
          refine ⟨hrestsub q h, by simp [hshape, List.mem_append, h]⟩
        exact hsub2.length_le
      have hcnt2 : ((allNonF1 pool).filter
          (fun q => decide (q ∈ withGeneral pool target cap r))).length
          ≤ rest.length := by
        have hsub3 : List.Subperm ((allNonF1 pool).filter
            (fun q => decide (q ∈ withGeneral pool target cap r))) rest := by
          apply (hannd.filter _).subperm
          intro q h
          have hmf := List.mem_filter.1 h
          have hq7 : q ∈ withGeneral pool target cap r := by
            simpa using hmf.2
          rw [hshape] at hq7
          rcases List.mem_append.1 hq7 with hqf | hqr
          · exact absurd ((beq_iff_eq).2 (groupSample_cat hqf))
              (by simp [hnonf1cat q hmf.1])
          · exact hqr
        exact hsub3.length_le
      have hsplit : avail.length + ((allNonF1 pool).filter
          (fun q => decide (q ∈ withGeneral pool target cap r))).length
          = (allNonF1 pool).length := by
        have hfun : (fun q : MetaQ =>
            decide (q ∉ withGeneral pool target cap r))
            = (fun q : MetaQ =>
              !(decide (q ∈ withGeneral pool target cap r))) := by
          funext q
          simp [decide_not]
        rw [hav, hfun]
        exact length_filter_not _ _
      refine ⟨?_, ?_, ?_, ?_⟩
      · rw [hs8]
        apply nodup_append_disjoint h7nd hrefnd
        intro q h1 h2
        exact (hmemavail q (hrefsub.subset h2)).2 h1
      · rw [hs8, List.length_append, hreflen]
        omega
      · rw [hs8, List.length_append, hreflen]
        omega
      · rw [hs8, List.countP_append]
        have hz : (sampleBy r.dRefill
            (min (target - (withGeneral pool target cap r).length)
              avail.length) avail).countP (fun q => catOf q == QCat.f1)
            = 0 :=
          List.countP_eq_zero.2 (fun q h => by
            simp [hnonf1cat q (hmemavail q (hrefsub.subset h)).1])
        rw [hz]
        omega
    · have hs8 : withRefill pool target cap r
          = withGeneral pool target cap r := by
        unfold withRefill
        rw [if_neg hlt]
      rw [hs8]
      refine ⟨h7nd, by omega, by omega, hcount7⟩
  obtain ⟨h8nd, h8le, h8min, h8cnt⟩ := hmain
  have hperm := shuffleBy_perm r.dShuffle (withRefill pool target cap r)
  have hshnd : (shuffleBy r.dShuffle (withRefill pool target cap r)).Nodup :=
    hperm.symm.nodup h8nd
  refine ⟨?_, ?_, ?_⟩
  · unfold curateSelect
    rw [List.length_take, hperm.length_eq]
    exact h8min
  · unfold curateSelect
    exact hshnd.sublist (List.take_sublist _ _)
  · unfold curateSelect
    calc ((shuffleBy r.dShuffle (withRefill pool target cap r)).take
        target).countP (fun q => catOf q == QCat.f1)
        ≤ (shuffleBy r.dShuffle
            (withRefill pool target cap r)).countP
            (fun q => catOf q == QCat.f1) :=
          (List.take_sublist _ _).countP_le _
      _ = (withRefill pool target cap r).countP
            (fun q => catOf q == QCat.f1) := hperm.countP_eq _
      _ ≤ cap := h8cnt

/-- Closed instance of C8: a pool of three distinct eligible general
questions with target 2 yields exactly two distinct items. -/
theorem curate_select_spec_witness :
    (curateSelect
        [⟨"aaa", some 50⟩, ⟨"bbb", some 50⟩, ⟨"ccc", some 50⟩] 2 2
        ⟨[], [], [], [], [], [], [], [], []⟩).length = 2 ∧
      (curateSelect
        [⟨"aaa", some 50⟩, ⟨"bbb", some 50⟩, ⟨"ccc", some 50⟩] 2 2
        ⟨[], [], [], [], [], [], [], [], []⟩).Nodup := by
  have h := curate_select_spec
    [⟨"aaa", some 50⟩, ⟨"bbb", some 50⟩, ⟨"ccc", some 50⟩] 2 2
    ⟨[], [], [], [], [], [], [], [], []⟩ (by decide)
  refine ⟨?_, h.2.1⟩
  rw [h.1]
  decide

/-- C9 counterexample: with the same pool and the same (nonexistent) seed
but different ambient states of the process-global generator, the script
produces different selections — the code passes no seed and draws from
the process-global random module, so a fixed pool does not determine the
selection. -/
theorem curate_rng_dependent :
    curateSelect
        [⟨"aaa", some 50⟩, ⟨"bbb", some 50⟩, ⟨"ccc", some 50⟩] 2 2
        ⟨[], [], [], [], [], [], [0, 0], [], []⟩
      ≠ curateSelect
        [⟨"aaa", some 50⟩, ⟨"bbb", some 50⟩, ⟨"ccc", some 50⟩] 2 2
        ⟨[], [], [], [], [], [], [2, 0], [], []⟩ := by
  decide

/-- C9 (amended): the selection is a deterministic function of the pool
and of the draws actually taken from the process-global generator — equal
pools and equal draw streams give equal selections — but the scripts
accept no seed or RNG argument, and distinct ambient draw streams can
change the selection of the same pool. -/
theorem curate_deterministic_given_draws :
    (∀ (pool : List MetaQ) (target cap : ℕ) (r1 r2 : RandDraws),
      r1 = r2 →
        curateSelect pool target cap r1 = curateSelect pool target cap r2) ∧
      curateSelect
          [⟨"aaa", some 50⟩, ⟨"bbb", some 50⟩, ⟨"ccc", some 50⟩] 2 2
          ⟨[], [], [], [], [], [], [1, 0], [], []⟩
        ≠ curateSelect
          [⟨"aaa", some 50⟩, ⟨"bbb", some 50⟩, ⟨"ccc", some 50⟩] 2 2
          ⟨[], [], [], [], [], [], [2, 0], [], []⟩ := by
  constructor
  · intro pool target cap r1 r2 h
    rw [h]
  · decide

/-- Closed instance of C9 (amended): equal draw streams reproduce the
selection. -/
theorem curate_deterministic_given_draws_witness :
    curateSelect [⟨"aaa", some 50⟩] 1 2 ⟨[], [], [], [], [], [], [], [], []⟩
      = curateSelect [⟨"aaa", some 50⟩] 1 2
        ⟨[], [], [], [], [], [], [], [], []⟩ :=
  curate_deterministic_given_draws.1 [⟨"aaa", some 50⟩] 1 2 _ _ rfl

end RoastEval
